import Mathlib

/-!
Verification of the ST77xx-pure-MP MicroPython display driver
(`st7789.py`) against its natural-language specification.

The driver is shallowly embedded:

* SPI traffic is modelled as a list of wire operations (`Wr`).  A
  command byte sent with DC low is `Wr.cmd`; a data payload sent with
  DC high is one of the `data*` constructors.  `_encode_pos` packs two
  unsigned big-endian 16-bit values; we keep the two logical integer
  values (`Wr.dataPos`) since every claim is about the coordinates
  themselves, not their byte serialisation.  Chip-select assertion
  (`cs.off()`, active low), the reset-pin pulses of `hard_reset` and
  `time.sleep_ms` delays also appear as trace events.
* The higher drawing primitives `line`, `circle`, `fill_triangle` only
  call `pixel` / `hline` / `vline`; they are embedded as lists of such
  calls (`DrawCall`), and `callWrites` gives the set of panel-logical
  pixels each call writes (an `hline`/`vline` sets a one-pixel-high or
  one-pixel-wide window and streams `count` pixels, which the
  controller places at consecutive coordinates of the window).
* Python `while` loops become fuel-indexed structural recursions; the
  fuel actually used is shown sufficient where a claim depends on it.
* Machine integers are `Int`/`Nat` (MicroPython ints are unbounded
  here; all packed values in the claims stay below 2^16).
-/

namespace ST77xx

/-- A wire-level event of the driver: command byte, data payload
(logical window coordinates, raw bytes, or a 2-byte color repeated
`n` times), chip select assertion, reset-pin pulses and delays. -/
inductive Wr where
  | csActive : Wr
  | resetOn : Wr
  | resetOff : Wr
  | cmd : Nat → Wr
  | dataPos : Int → Int → Wr
  | dataBytes : List Nat → Wr
  | dataColor : List Nat → Nat → Wr
  | delay : Nat → Wr
deriving DecidableEq, Repr

/-- The device configuration fields of `ST7789.__init__` that the
embedded operations read: panel size, physical offset, inversion flag,
and whether a reset pin was supplied. -/
structure ST7789 where
  width : Int
  height : Int
  xstart : Int
  ystart : Int
  inversion : Bool
  hasReset : Bool
deriving DecidableEq, Repr

/-- `color(r,g,b)`: RGB565 encoding packed as two big-endian bytes
(`struct.pack(">H", c)`). -/
def color (r g b : Nat) : List Nat :=
  let c := (r &&& 0xf8) <<< 8 ||| (g &&& 0xfc) <<< 3 ||| b >>> 3
  [c / 256, c % 256]

/-- Big-endian decoding of a two-byte string. -/
def beDecode : List Nat → Nat
  | [a, b] => a * 256 + b
  | _ => 0

/-- Python truthiness of the optional `xstart` / `ystart` constructor
arguments: `None` and `0` are falsy, any other integer is truthy. -/
def truthy : Option Int → Bool
  | none => false
  | some v => decide (v ≠ 0)

/-- The physical-offset selection of `ST7789.__init__`:
`if xstart and ystart: ... elif (w,h) == (128,160): ... elif (240,240):
... elif (135,240): (52,40) else: (0,0)`. -/
def chooseOffsets (xstart ystart : Option Int) (width height : Int) : Int × Int :=
  if truthy xstart && truthy ystart then (xstart.getD 0, ystart.getD 0)
  else if width = 128 ∧ height = 160 then (0, 0)
  else if width = 240 ∧ height = 240 then (0, 0)
  else if width = 135 ∧ height = 240 then (52, 40)
  else (0, 0)

/-- `_set_columns(start, end)`: CASET with both bounds shifted by
`xstart`. -/
def set_columns (d : ST7789) (start end_ : Int) : List Wr :=
  [Wr.cmd 0x2A, Wr.dataPos (start + d.xstart) (end_ + d.xstart)]

/-- `_set_rows(start, end)`: the source first does `start += ystart;
end += ystart` and then encodes `start + ystart, end + ystart`, so the
row offset is applied twice. -/
def set_rows (d : ST7789) (start end_ : Int) : List Wr :=
  let start1 := start + d.ystart
  let end1 := end_ + d.ystart
  [Wr.cmd 0x2B, Wr.dataPos (start1 + d.ystart) (end1 + d.ystart)]

/-- `set_window(x0,y0,x1,y1)`: column range, row range, then RAMWR. -/
def set_window (d : ST7789) (x0 y0 x1 y1 : Int) : List Wr :=
  set_columns d x0 x1 ++ set_rows d y0 y1 ++ [Wr.cmd 0x2C]

/-- `pixel(x,y,color)`: clipped to the panel; emits its own CASET /
RASET / RAMWR without adding any offset. -/
def pixel (d : ST7789) (x y : Int) (c : List Nat) : List Wr :=
  if x < 0 ∨ x ≥ d.width ∨ y < 0 ∨ y ≥ d.height then []
  else
    [Wr.cmd 0x2A, Wr.dataPos x x,
     Wr.cmd 0x2B, Wr.dataPos y y,
     Wr.cmd 0x2C, Wr.dataColor c 1]

/-- `hline(x0,x1,y,color)`: rejects an out-of-range row, clamps the
column span, sets a one-row window and streams `x1-x0+1` pixels
(an empty payload when the clamped span is inverted). -/
def hline (d : ST7789) (x0 x1 y : Int) (c : List Nat) : List Wr :=
  if y < 0 ∨ y ≥ d.height then []
  else
    let x0c := max (min x0 x1) 0
    let x1c := min (max x0 x1) (d.width - 1)
    set_window d x0c y x1c y ++ [Wr.dataColor c (x1c - x0c + 1).toNat]

/-- `vline(y0,y1,x,color)`: clamps the row span but performs no check
at all on the column `x`. -/
def vline (d : ST7789) (y0 y1 x : Int) (c : List Nat) : List Wr :=
  let y0c := max (min y0 y1) 0
  let y1c := min (max y0 y1) (d.height - 1)
  set_window d x y0c x y1c ++ [Wr.dataColor c (y1c - y0c + 1).toNat]

/-- `fill(color)`: window over the whole panel, then one scanline data
write (`color*width`) per row. -/
def fill (d : ST7789) (c : List Nat) : List Wr :=
  set_window d 0 0 (d.width - 1) (d.height - 1) ++
    List.replicate d.height.toNat (Wr.dataColor c d.width.toNat)

/-- `hard_reset()`: three reset-pin edges with delays, only when a
reset pin was configured. -/
def hard_reset (d : ST7789) : List Wr :=
  if d.hasReset then
    [Wr.resetOn, Wr.delay 50, Wr.resetOff, Wr.delay 50, Wr.resetOn, Wr.delay 150]
  else []

/-- `soft_reset()`: SWRESET then a 150 ms delay. -/
def soft_reset : List Wr :=
  [Wr.cmd 0x01, Wr.delay 150]

/-- `sleep_mode(value)`: SLPIN when true, SLPOUT when false. -/
def sleep_mode (value : Bool) : List Wr :=
  if value then [Wr.cmd 0x10] else [Wr.cmd 0x11]

/-- `inversion_mode(value)`: INVON when true, INVOFF when false. -/
def inversion_mode (value : Bool) : List Wr :=
  if value then [Wr.cmd 0x21] else [Wr.cmd 0x20]

/-- `_set_color_mode(mode)`: COLMOD with the mode byte masked by 0x77. -/
def set_color_mode (mode : Nat) : List Wr :=
  [Wr.cmd 0x3A, Wr.dataBytes [mode &&& 0x77]]

/-- The MADCTL value assembled by `_set_mem_access_mode` from the four
flags (MV = 0x20, MX = 0x40, MY = 0x80, BGR = 0x08). -/
def madctlValue (landscape mirror_x mirror_y is_bgr : Bool) : Nat :=
  (((if landscape then 0x20 else 0) |||
    (if mirror_x then 0x40 else 0)) |||
    (if mirror_y then 0x80 else 0)) |||
    (if is_bgr then 0x08 else 0)

/-- `_set_mem_access_mode(...)`: MADCTL write with the flag byte. -/
def set_mem_access_mode (landscape mirror_x mirror_y is_bgr : Bool) : List Wr :=
  [Wr.cmd 0x36, Wr.dataBytes [madctlValue landscape mirror_x mirror_y is_bgr]]

/-- `init(...)`: the full initialization trace, in source order. -/
def init (d : ST7789) (landscape mirror_x mirror_y is_bgr : Bool) : List Wr :=
  [Wr.csActive] ++
  hard_reset d ++
  soft_reset ++
  sleep_mode false ++
  set_color_mode (0x50 ||| 0x05) ++
  [Wr.delay 50] ++
  set_mem_access_mode landscape mirror_x mirror_y is_bgr ++
  inversion_mode d.inversion ++
  [Wr.delay 10] ++
  [Wr.cmd 0x13] ++
  [Wr.delay 10] ++
  fill d (color 0 0 0) ++
  [Wr.cmd 0x29] ++
  [Wr.delay 500]

/-- A call to one of the three low-level drawing primitives; the
higher primitives (`line`, `circle`, `fill_triangle`) only issue such
calls.  The color argument is omitted: it does not affect which pixels
are addressed. -/
inductive DrawCall where
  | px : Int → Int → DrawCall
  | hl : Int → Int → Int → DrawCall
  | vl : Int → Int → Int → DrawCall
deriving DecidableEq, Repr

/-- The set of panel-logical pixels a primitive call writes, read off
the primitive's source: `pixel` writes (x,y) when in range; `hline`
writes row `y` (when in range) over the clamped span; `vline` writes
column `x` (never checked) over the clamped row span. -/
def callWrites (d : ST7789) : DrawCall → Int × Int → Bool
  | DrawCall.px x y, p =>
      decide (0 ≤ x) && decide (x < d.width) &&
      decide (0 ≤ y) && decide (y < d.height) && decide (p = (x, y))
  | DrawCall.hl x0 x1 y, p =>
      decide (0 ≤ y) && decide (y < d.height) && decide (p.2 = y) &&
      decide (max (min x0 x1) 0 ≤ p.1) &&
      decide (p.1 ≤ min (max x0 x1) (d.width - 1))
  | DrawCall.vl y0 y1 x, p =>
      decide (p.1 = x) &&
      decide (max (min y0 y1) 0 ≤ p.2) &&
      decide (p.2 ≤ min (max y0 y1) (d.height - 1))

/-- A pixel is covered by a list of primitive calls when some call
writes it. -/
def covers (d : ST7789) (calls : List DrawCall) (p : Int × Int) : Prop :=
  ∃ c ∈ calls, callWrites d c p = true

instance (d : ST7789) (calls : List DrawCall) (p : Int × Int) :
    Decidable (covers d calls p) :=
  List.decidableBEx _ calls

/-- The conditional update `if f >= 0: y0 -= 1` at the top of the
circle loop body. -/
def circleStepY0 (f y0 : Int) : Int := if f ≥ 0 then y0 - 1 else y0

/-- The conditional update `if f >= 0: dy += 2` of the circle loop. -/
def circleStepDy (f dy : Int) : Int := if f ≥ 0 then dy + 2 else dy

/-- The conditional update `if f >= 0: f += dy` (with `dy` already
incremented) of the circle loop. -/
def circleStepF (f dy : Int) : Int := if f ≥ 0 then f + (dy + 2) else f

/-- The `while x0 < y0` loop of `circle`, with the per-iteration state
updates of the source (`f`, `dx`, `dy`, `x0`, `y0`: conditional
`y0`/`dy`/`f` update, then `x0 += 1; dx += 2; f += dx`) and either the
four filled horizontal spans or the eight octant points.  The loop is
fuel-indexed; `circleLoop_fuel_stable` shows any fuel of at least
`(y0 - x0).toNat` gives the same trace as the unbounded while loop. -/
def circleLoop (x y : Int) (fl : Bool) :
    Nat → Int → Int → Int → Int → Int → List DrawCall
  | 0, _, _, _, _, _ => []
  | Nat.succ n, f, dx, dy, x0, y0 =>
    if x0 < y0 then
      (if fl then
        [DrawCall.hl (x - (x0 + 1)) (x + (x0 + 1)) (y + circleStepY0 f y0),
         DrawCall.hl (x - (x0 + 1)) (x + (x0 + 1)) (y - circleStepY0 f y0),
         DrawCall.hl (x - circleStepY0 f y0) (x + circleStepY0 f y0) (y + (x0 + 1)),
         DrawCall.hl (x - circleStepY0 f y0) (x + circleStepY0 f y0) (y - (x0 + 1))]
      else
        [DrawCall.px (x + (x0 + 1)) (y + circleStepY0 f y0),
         DrawCall.px (x - (x0 + 1)) (y + circleStepY0 f y0),
         DrawCall.px (x + (x0 + 1)) (y - circleStepY0 f y0),
         DrawCall.px (x - (x0 + 1)) (y - circleStepY0 f y0),
         DrawCall.px (x + circleStepY0 f y0) (y + (x0 + 1)),
         DrawCall.px (x - circleStepY0 f y0) (y + (x0 + 1)),
         DrawCall.px (x + circleStepY0 f y0) (y - (x0 + 1)),
         DrawCall.px (x - circleStepY0 f y0) (y - (x0 + 1))]) ++
      circleLoop x y fl n (circleStepF f dy + (dx + 2)) (dx + 2)
        (circleStepDy f dy) (x0 + 1) (circleStepY0 f y0)
    else []

/-- `circle(x, y, radius, color, fill)`: the initial diameter
(filled) or the two extreme points (outline), then the midpoint loop
starting from `f = 1 - radius`, `dx = 1`, `dy = -2*radius`,
`x0 = 0`, `y0 = radius`. -/
def circle (x y radius : Int) (fl : Bool) : List DrawCall :=
  (if fl then [DrawCall.hl (x - radius) (x + radius) y]
   else [DrawCall.px (x - radius) y, DrawCall.px (x + radius) y]) ++
  circleLoop x y fl (radius.toNat + 1) (1 - radius) 1 (-2 * radius) 0 radius

/-- The `while True` Bresenham loop of `line`: plot the current
point, break once `(x0, y0) = (x1, y1)`, otherwise apply the two
error-threshold updates (`if e2 >= dy: err += dy; x0 += sx` and
`if e2 <= dx: err += dx; y0 += sy`) and continue.  Fuel-indexed;
`none` means the fuel ran out before the break was reached. -/
def bres (x1 y1 dx dy sx sy : Int) : Nat → Int → Int → Int → Option (List DrawCall)
  | 0, _, _, _ => none
  | Nat.succ n, x0, y0, err =>
    if x0 = x1 ∧ y0 = y1 then some [DrawCall.px x0 y0]
    else
      (bres x1 y1 dx dy sx sy n
        (if 2 * err ≥ dy then x0 + sx else x0)
        (if 2 * err ≤ dx then y0 + sy else y0)
        (if 2 * err ≤ dx
          then (if 2 * err ≥ dy then err + dy else err) + dx
          else (if 2 * err ≥ dy then err + dy else err))).map
        (fun rest => DrawCall.px x0 y0 :: rest)

/-- `line(x0,y0,x1,y1,color)`: fast paths delegating horizontal lines
to `hline` and vertical lines to `vline`, otherwise Bresenham with
`dx = abs(x1-x0)`, `dy = -abs(y1-y0)`, unit steps toward the endpoint
and initial error `dx + dy`.  The fuel `|x1-x0| + |y1-y0| + 1` is
shown sufficient for the loop to reach its break
(`line_bresenham_terminates`). -/
def line (x0 y0 x1 y1 : Int) : Option (List DrawCall) :=
  if y0 = y1 then some [DrawCall.hl x0 x1 y0]
  else if x0 = x1 then some [DrawCall.vl y0 y1 x0]
  else
    bres x1 y1 |x1 - x0| (-|y1 - y0|)
      (if x0 < x1 then 1 else -1) (if y0 < y1 then 1 else -1)
      ((x1 - x0).natAbs + (y1 - y0).natAbs + 1) x0 y0 (|x1 - x0| + -|y1 - y0|)

/-- Python float division, modelled over the rationals; a zero
divisor is a runtime fault (`none`). -/
def pydiv (a b : ℚ) : Option ℚ :=
  if b = 0 then none else some (a / b)

/-- The guarded inverse-slope expression of `fill_triangle`:
`(dx) / (dy) if dy != 0 else 0`.  The division is only evaluated
under the guard. -/
def slope_term (dx dy : ℚ) : Option ℚ :=
  if dy ≠ 0 then pydiv dx dy else some 0

/-- Python `int()`: truncation toward zero. -/
def pyInt (q : ℚ) : Int :=
  if 0 ≤ q then ⌊q⌋ else ⌈q⌉

/-- `fill_triangle(x0,y0,x1,y1,x2,y2,color)`: sort the vertices by
`y` with three conditional swaps, compute the three guarded inverse
slopes, then scan the upper part (`y0..y1`, spans from `x_start`
to `x_end` advancing by slopes 1 and 2) and the lower part
(`y1+1..y2`, `x_start` reset to `x1`, advancing by slopes 3 and 2). -/
def fill_triangle (x0 y0 x1 y1 x2 y2 : Int) : Option (List DrawCall) := do
  let (x0, y0, x1, y1) := if y0 > y1 then (x1, y1, x0, y0) else (x0, y0, x1, y1)
  let (x0, y0, x2, y2) := if y0 > y2 then (x2, y2, x0, y0) else (x0, y0, x2, y2)
  let (x1, y1, x2, y2) := if y1 > y2 then (x2, y2, x1, y1) else (x1, y1, x2, y2)
  let inv_slope1 ← slope_term ((x1 - x0 : Int) : ℚ) ((y1 - y0 : Int) : ℚ)
  let inv_slope2 ← slope_term ((x2 - x0 : Int) : ℚ) ((y2 - y0 : Int) : ℚ)
  let inv_slope3 ← slope_term ((x2 - x1 : Int) : ℚ) ((y2 - y1 : Int) : ℚ)
  let upper := (List.range (y1 + 1 - y0).toNat).map (fun i => y0 + (i : Int))
  let st := upper.foldl
    (fun (acc : List DrawCall × ℚ × ℚ) y =>
      (acc.1 ++ [DrawCall.hl (pyInt acc.2.1) (pyInt acc.2.2) y],
       acc.2.1 + inv_slope1, acc.2.2 + inv_slope2))
    ([], ((x0 : ℚ), (x0 : ℚ)))
  let lower := (List.range (y2 - y1).toNat).map (fun i => y1 + 1 + (i : Int))
  let st2 := lower.foldl
    (fun (acc : List DrawCall × ℚ × ℚ) y =>
      (acc.1 ++ [DrawCall.hl (pyInt acc.2.1) (pyInt acc.2.2) y],
       acc.2.1 + inv_slope3, acc.2.2 + inv_slope2))
    (st.1, ((x1 : ℚ), st.2.2))
  pure st2.1

/-- Python bytearray slice assignment `l[i : i+len(seg)] = seg`
(equal lengths on both sides). -/
def setSlice (l : List Nat) (i : Nat) (seg : List Nat) : List Nat :=
  l.take i ++ seg ++ l.drop (i + seg.length)

/-- The partial-update copy loop of `char`: starting from a zeroed
buffer of `width*8*2` bytes, for each of the 8 glyph rows copy the
first `width*2` bytes of that row of the 16-byte-wide scratch buffer
(`src_idx = (dy*8)*2`, `dst_idx = (dy*width)*2`). -/
def charCopy (w : Nat) (src : List Nat) : List Nat :=
  (List.range 8).foldl
    (fun copy dy => setSlice copy (dy * w * 2) ((src.drop (dy * 8 * 2)).take (w * 2)))
    (List.replicate (w * 8 * 2) 0)

/-- `char(x,y,char,bgcolor,fgcolor)`: nothing when the origin is past
the right or bottom edge; a partial window of `width - x` columns with
the row-by-row copy when the glyph sticks out on the right; otherwise
the full 8x8 window with the whole scratch buffer.  `src` stands for
`charfb_data`, the 128-byte scratch framebuffer after the MicroPython
`framebuf` module (external C code) has rendered the glyph into it. -/
def char (d : ST7789) (x y : Int) (src : List Nat) : List Wr :=
  if x ≥ d.width ∨ y ≥ d.height then []
  else if x + 7 ≥ d.width then
    let width := d.width - x
    set_window d x y (x + width - 1) (y + 7) ++
      [Wr.dataBytes (charCopy width.toNat src)]
  else
    set_window d x y (x + 7) (y + 7) ++ [Wr.dataBytes src]

/-- The 135x240 panel with its table offset (52, 40). -/
def d135 : ST7789 :=
  { width := 135, height := 240, xstart := 52, ystart := 40,
    inversion := false, hasReset := true }

/-- A 240x240 panel (offset (0,0)). -/
def d240 : ST7789 :=
  { width := 240, height := 240, xstart := 0, ystart := 0,
    inversion := false, hasReset := true }

end ST77xx

namespace ST77xx

/-- Claim C3: for r, g, b each in [0,255], `color(r,g,b)` returns
exactly two bytes which, decoded big-endian, equal
`((r&0xF8)<<8)|((g&0xFC)<<3)|(b>>3)`. -/
theorem color_rgb565 (r g b : Nat) (hr : r ≤ 255) (hg : g ≤ 255) (hb : b ≤ 255) :
    (color r g b).length = 2 ∧
    (∀ byte ∈ color r g b, byte < 256) ∧
    beDecode (color r g b) = (r &&& 0xf8) <<< 8 ||| (g &&& 0xfc) <<< 3 ||| b >>> 3 := by
  have h1 : (r &&& 0xf8) <<< 8 < 2 ^ 16 := by
    have : r &&& 0xf8 ≤ 0xf8 := Nat.and_le_right
    have := Nat.shiftLeft_eq (r &&& 0xf8) 8
    omega
  have h2 : (g &&& 0xfc) <<< 3 < 2 ^ 16 := by
    have : g &&& 0xfc ≤ 0xfc := Nat.and_le_right
    have := Nat.shiftLeft_eq (g &&& 0xfc) 3
    omega
  have h3 : b >>> 3 < 2 ^ 16 := by
    have := Nat.shiftRight_eq_div_pow b 3
    omega
  have hc : (r &&& 0xf8) <<< 8 ||| (g &&& 0xfc) <<< 3 ||| b >>> 3 < 2 ^ 16 :=
    Nat.or_lt_two_pow (Nat.or_lt_two_pow h1 h2) h3
  refine ⟨rfl, ?_, ?_⟩
  · intro byte hmem
    simp only [color, List.mem_cons, List.not_mem_nil, or_false] at hmem
    rcases hmem with h | h <;> omega
  · simp only [color, beDecode]
    omega

/-- Claim C3 witness at (255, 128, 64). -/
theorem color_rgb565_witness :
    (color 255 128 64).length = 2 ∧
    beDecode (color 255 128 64) =
      (255 &&& 0xf8) <<< 8 ||| (128 &&& 0xfc) <<< 3 ||| 64 >>> 3 :=
  ⟨(color_rgb565 255 128 64 (by decide) (by decide) (by decide)).1,
   (color_rgb565 255 128 64 (by decide) (by decide) (by decide)).2.2⟩

/-- Claim C9: offset selection is total; when both `xstart` and
`ystart` are passed and nonzero they are used, and otherwise (also when
one of them is explicitly 0) the size table gives (52,40) for 135x240
panels and (0,0) for every other panel size. -/
theorem chooseOffsets_spec (xs ys : Option Int) (w h : Int) :
    ((∃ a, xs = some a ∧ a ≠ 0) → (∃ b, ys = some b ∧ b ≠ 0) →
      chooseOffsets xs ys w h = (xs.getD 0, ys.getD 0)) ∧
    (truthy xs = false ∨ truthy ys = false →
      chooseOffsets xs ys w h = if w = 135 ∧ h = 240 then (52, 40) else (0, 0)) := by
  constructor
  · rintro ⟨a, rfl, ha⟩ ⟨b, rfl, hb⟩
    have hta : truthy (some a) = true := by simp [truthy, ha]
    have htb : truthy (some b) = true := by simp [truthy, hb]
    simp [chooseOffsets, hta, htb]
  · intro hfalse
    have hand : (truthy xs && truthy ys) = false := by
      rcases hfalse with h | h <;> simp [h]
    by_cases h128 : w = 128 ∧ h = 160
    · have : ¬(w = 135 ∧ h = 240) := by rintro ⟨rfl, rfl⟩; omega
      simp [chooseOffsets, hand, h128, this]
    · by_cases h240 : w = 240 ∧ h = 240
      · have : ¬(w = 135 ∧ h = 240) := by rintro ⟨rfl, rfl⟩; omega
        simp [chooseOffsets, hand, h128, h240, this]
      · by_cases h135 : w = 135 ∧ h = 240
        · simp [chooseOffsets, hand, h128, h240, h135]
        · simp [chooseOffsets, hand, h128, h240, h135]

/-- Claim C9 witness: an explicitly passed `xstart = 0` is ignored in
favor of the 135x240 table entry (52, 40), and a nonzero passed pair
is used verbatim on an unsupported size. -/
theorem chooseOffsets_spec_witness :
    chooseOffsets (some 0) (some 5) 135 240 = (52, 40) ∧
    chooseOffsets (some 3) (some 7) 100 100 = ((some (3:Int)).getD 0, (some (7:Int)).getD 0) := by
  constructor
  · have h := (chooseOffsets_spec (some 0) (some 5) 135 240).2 (Or.inl (by decide))
    simpa using h
  · exact (chooseOffsets_spec (some 3) (some 7) 100 100).1
      ⟨3, rfl, by decide⟩ ⟨7, rfl, by decide⟩

/-- Claim C2: `init(landscape, mirror_x, mirror_y, is_bgr)` (with a
reset pin configured) emits exactly: chip-select assertion, the hard
reset pulse train, soft reset (0x01 + 150 ms), sleep-out (0x11),
COLMOD set to 65K/16-bit (0x55) followed by 50 ms, MADCTL write,
inversion on/off, 10 ms, normal display mode (0x13), 10 ms, a fill of
the whole panel with black (full-panel window then one black scanline
per row), display on (0x29) and a final 500 ms delay. -/
theorem init_sequence (d : ST7789) (landscape mirror_x mirror_y is_bgr : Bool)
    (h : d.hasReset = true) :
    init d landscape mirror_x mirror_y is_bgr =
      [Wr.csActive,
       Wr.resetOn, Wr.delay 50, Wr.resetOff, Wr.delay 50, Wr.resetOn, Wr.delay 150,
       Wr.cmd 0x01, Wr.delay 150,
       Wr.cmd 0x11,
       Wr.cmd 0x3A, Wr.dataBytes [0x55], Wr.delay 50,
       Wr.cmd 0x36, Wr.dataBytes [madctlValue landscape mirror_x mirror_y is_bgr],
       (if d.inversion then Wr.cmd 0x21 else Wr.cmd 0x20),
       Wr.delay 10,
       Wr.cmd 0x13,
       Wr.delay 10] ++
      (set_window d 0 0 (d.width - 1) (d.height - 1) ++
       List.replicate d.height.toNat (Wr.dataColor [0, 0] d.width.toNat)) ++
      [Wr.cmd 0x29, Wr.delay 500] := by
  have hblack : color 0 0 0 = [0, 0] := rfl
  simp only [init, hard_reset, h, if_true, soft_reset, sleep_mode, if_false,
    set_color_mode, set_mem_access_mode, inversion_mode, fill, hblack]
  cases d.inversion <;> simp <;> decide

/-- Claim C2 witness: the initialization trace of the 240x240 panel
with default flags. -/
theorem init_sequence_witness :
    init d240 false false false false =
      [Wr.csActive,
       Wr.resetOn, Wr.delay 50, Wr.resetOff, Wr.delay 50, Wr.resetOn, Wr.delay 150,
       Wr.cmd 0x01, Wr.delay 150,
       Wr.cmd 0x11,
       Wr.cmd 0x3A, Wr.dataBytes [0x55], Wr.delay 50,
       Wr.cmd 0x36, Wr.dataBytes [madctlValue false false false false],
       (if d240.inversion then Wr.cmd 0x21 else Wr.cmd 0x20),
       Wr.delay 10,
       Wr.cmd 0x13,
       Wr.delay 10] ++
      (set_window d240 0 0 (d240.width - 1) (d240.height - 1) ++
       List.replicate d240.height.toNat (Wr.dataColor [0, 0] d240.width.toNat)) ++
      [Wr.cmd 0x29, Wr.delay 500] :=
  init_sequence d240 false false false false (by decide)

/-- Claim C1 (refuted, code bug): on the 135x240 panel
(`ystart = 40`), `set_window 0 0 0 0` emits a row-address command whose
start/end are 80 = 0 + 2*ystart, not 40 = 0 + ystart: `_set_rows` adds
the row offset twice, so the spec's "offset added exactly once" fails
for every panel with a nonzero `ystart`. The column offset is added
once, as specified. -/
theorem set_window_double_ystart :
    set_window d135 0 0 0 0 =
      [Wr.cmd 0x2A, Wr.dataPos 52 52,
       Wr.cmd 0x2B, Wr.dataPos 80 80,
       Wr.cmd 0x2C] ∧
    (0 : Int) + 2 * d135.ystart ≠ 0 + d135.ystart := by
  constructor
  · rfl
  · decide

/-- Coverage distributes over concatenation of call lists. -/
theorem covers_append (d : ST7789) (a b : List DrawCall) (p : Int × Int) :
    covers d (a ++ b) p ↔ covers d a p ∨ covers d b p := by
  simp [covers, List.mem_append, or_and_right, exists_or]

/-- A pixel written by `pixel` at one endpoint of a span is covered by
the `hline` over that span: the point is in range, so the clamped span
still contains it. -/
theorem cover_px_hl (d : ST7789) {l r a b : Int} {p : Int × Int}
    (ha : a = l ∨ a = r)
    (h : callWrites d (DrawCall.px a b) p = true) :
    callWrites d (DrawCall.hl l r b) p = true := by
  simp only [callWrites, Bool.and_eq_true, decide_eq_true_eq] at h ⊢
  obtain ⟨⟨⟨⟨hx0, hx1⟩, hy0⟩, hy1⟩, hpe⟩ := h
  subst hpe
  rcases ha with rfl | rfl
  · exact ⟨⟨⟨⟨hy0, hy1⟩, rfl⟩, max_le (min_le_left _ _) hx0⟩,
      le_min (le_max_left _ _) (by omega)⟩
  · exact ⟨⟨⟨⟨hy0, hy1⟩, rfl⟩, max_le (min_le_right _ _) hx0⟩,
      le_min (le_max_right _ _) (by omega)⟩

/-- The fuel-indexed circle loop is insensitive to the fuel once the
fuel reaches `(y0 - x0).toNat`: `x0` increases by one per iteration
and `y0` never increases, so the while loop runs at most
`(y0 - x0).toNat` times. -/
theorem circleLoop_fuel_stable (x y : Int) (fl : Bool) :
    ∀ (n m : Nat) (f dx dy x0 y0 : Int),
      (y0 - x0).toNat ≤ n → (y0 - x0).toNat ≤ m →
      circleLoop x y fl n f dx dy x0 y0 = circleLoop x y fl m f dx dy x0 y0 := by
  intro n
  induction n with
  | zero =>
    intro m f dx dy x0 y0 hn _
    have hge : ¬ x0 < y0 := by omega
    cases m with
    | zero => rfl
    | succ m => simp [circleLoop, hge]
  | succ n ih =>
    intro m f dx dy x0 y0 hn hm
    by_cases hlt : x0 < y0
    · obtain ⟨m', rfl⟩ : ∃ m', m = m' + 1 := ⟨m - 1, by omega⟩
      simp only [circleLoop, hlt, if_true]
      congr 1
      have hy : circleStepY0 f y0 ≤ y0 := by
        unfold circleStepY0; split <;> omega
      apply ih <;> omega
    · cases m with
      | zero => simp [circleLoop, hlt]
      | succ m => simp [circleLoop, hlt]

/-- Each octant point plotted by one iteration of the outline loop is
inside one of the four spans drawn by the same iteration of the filled
loop, and the two loops advance through identical states. -/
theorem circleLoop_outline_subset (d : ST7789) (x y : Int) :
    ∀ (n : Nat) (f dx dy x0 y0 : Int) (p : Int × Int),
      covers d (circleLoop x y false n f dx dy x0 y0) p →
      covers d (circleLoop x y true n f dx dy x0 y0) p := by
  intro n
  induction n with
  | zero =>
    intro f dx dy x0 y0 p h
    obtain ⟨c, hc, _⟩ := h
    simp [circleLoop] at hc
  | succ n ih =>
    intro f dx dy x0 y0 p h
    by_cases hlt : x0 < y0
    · have hF : circleLoop x y false (n + 1) f dx dy x0 y0 =
          [DrawCall.px (x + (x0 + 1)) (y + circleStepY0 f y0),
           DrawCall.px (x - (x0 + 1)) (y + circleStepY0 f y0),
           DrawCall.px (x + (x0 + 1)) (y - circleStepY0 f y0),
           DrawCall.px (x - (x0 + 1)) (y - circleStepY0 f y0),
           DrawCall.px (x + circleStepY0 f y0) (y + (x0 + 1)),
           DrawCall.px (x - circleStepY0 f y0) (y + (x0 + 1)),
           DrawCall.px (x + circleStepY0 f y0) (y - (x0 + 1)),
           DrawCall.px (x - circleStepY0 f y0) (y - (x0 + 1))] ++
          circleLoop x y false n (circleStepF f dy + (dx + 2)) (dx + 2)
            (circleStepDy f dy) (x0 + 1) (circleStepY0 f y0) := by
        simp [circleLoop, hlt]
      have hT : circleLoop x y true (n + 1) f dx dy x0 y0 =
          [DrawCall.hl (x - (x0 + 1)) (x + (x0 + 1)) (y + circleStepY0 f y0),
           DrawCall.hl (x - (x0 + 1)) (x + (x0 + 1)) (y - circleStepY0 f y0),
           DrawCall.hl (x - circleStepY0 f y0) (x + circleStepY0 f y0) (y + (x0 + 1)),
           DrawCall.hl (x - circleStepY0 f y0) (x + circleStepY0 f y0) (y - (x0 + 1))] ++
          circleLoop x y true n (circleStepF f dy + (dx + 2)) (dx + 2)
            (circleStepDy f dy) (x0 + 1) (circleStepY0 f y0) := by
        simp [circleLoop, hlt]
      rw [hF] at h
      rw [hT]
      obtain ⟨c, hc, hw⟩ := h
      rcases List.mem_append.mp hc with hc | hc
      · simp only [List.mem_cons, List.not_mem_nil, or_false] at hc
        rcases hc with rfl | rfl | rfl | rfl | rfl | rfl | rfl | rfl
        · exact ⟨DrawCall.hl (x - (x0 + 1)) (x + (x0 + 1)) (y + circleStepY0 f y0),
            by simp, cover_px_hl d (Or.inr rfl) hw⟩
        · exact ⟨DrawCall.hl (x - (x0 + 1)) (x + (x0 + 1)) (y + circleStepY0 f y0),
            by simp, cover_px_hl d (Or.inl rfl) hw⟩
        · exact ⟨DrawCall.hl (x - (x0 + 1)) (x + (x0 + 1)) (y - circleStepY0 f y0),
            by simp, cover_px_hl d (Or.inr rfl) hw⟩
        · exact ⟨DrawCall.hl (x - (x0 + 1)) (x + (x0 + 1)) (y - circleStepY0 f y0),
            by simp, cover_px_hl d (Or.inl rfl) hw⟩
        · exact ⟨DrawCall.hl (x - circleStepY0 f y0) (x + circleStepY0 f y0) (y + (x0 + 1)),
            by simp, cover_px_hl d (Or.inr rfl) hw⟩
        · exact ⟨DrawCall.hl (x - circleStepY0 f y0) (x + circleStepY0 f y0) (y + (x0 + 1)),
            by simp, cover_px_hl d (Or.inl rfl) hw⟩
        · exact ⟨DrawCall.hl (x - circleStepY0 f y0) (x + circleStepY0 f y0) (y - (x0 + 1)),
            by simp, cover_px_hl d (Or.inr rfl) hw⟩
        · exact ⟨DrawCall.hl (x - circleStepY0 f y0) (x + circleStepY0 f y0) (y - (x0 + 1)),
            by simp, cover_px_hl d (Or.inl rfl) hw⟩
      · obtain ⟨c', hc', hw'⟩ := ih _ _ _ _ _ p ⟨c, hc, hw⟩
        exact ⟨c', List.mem_append.mpr (Or.inr hc'), hw'⟩
    · obtain ⟨c, hc, _⟩ := h
      simp [circleLoop, hlt] at hc

/-- Claim C5: every pixel plotted by the circle outline
(`fill=False`) is covered by the filled circle (`fill=True`): the two
variants run the same midpoint loop, and each octant point lies inside
one of the four horizontal spans of the same iteration (the two
initial extreme points lie on the initial diameter). -/
theorem circle_outline_subset_fill (d : ST7789) (x y radius : Int)
    (p : Int × Int) (hr : 0 ≤ radius) :
    covers d (circle x y radius false) p →
    covers d (circle x y radius true) p := by
  intro h
  have hF : circle x y radius false =
      [DrawCall.px (x - radius) y, DrawCall.px (x + radius) y] ++
      circleLoop x y false (radius.toNat + 1) (1 - radius) 1 (-2 * radius) 0 radius := by
    simp [circle]
  have hT : circle x y radius true =
      [DrawCall.hl (x - radius) (x + radius) y] ++
      circleLoop x y true (radius.toNat + 1) (1 - radius) 1 (-2 * radius) 0 radius := by
    simp [circle]
  rw [hF] at h
  rw [hT]
  obtain ⟨c, hc, hw⟩ := h
  rcases List.mem_append.mp hc with hc | hc
  · simp only [List.mem_cons, List.not_mem_nil, or_false] at hc
    rcases hc with rfl | rfl
    · exact ⟨DrawCall.hl (x - radius) (x + radius) y,
        by simp, cover_px_hl d (Or.inl rfl) hw⟩
    · exact ⟨DrawCall.hl (x - radius) (x + radius) y,
        by simp, cover_px_hl d (Or.inr rfl) hw⟩
  · obtain ⟨c', hc', hw'⟩ := circleLoop_outline_subset d x y _ _ _ _ _ _ p ⟨c, hc, hw⟩
    exact ⟨c', List.mem_append.mpr (Or.inr hc'), hw'⟩

/-- Claim C5 witness: the outline of the radius-3 circle at (10,10)
plots (13,10), and by the theorem the filled variant covers it. -/
theorem circle_outline_subset_fill_witness :
    covers d240 (circle 10 10 3 true) (13, 10) :=
  circle_outline_subset_fill d240 10 10 3 (13, 10) (by decide) (by decide)

/-- Claim C4 (refuted, code bug): `vline` never checks its column
argument, unlike `hline`'s row check and `pixel`'s full check: on a
240x240 panel, `vline(0, 0, 300, c)` emits a window addressing column
300 and streams one pixel, which the controller places at (300, 0),
outside [0, width). Clipping is therefore not uniform across the
primitives. -/
theorem vline_writes_out_of_range :
    vline d240 0 0 300 [7, 7] =
      [Wr.cmd 0x2A, Wr.dataPos 300 300,
       Wr.cmd 0x2B, Wr.dataPos 0 0,
       Wr.cmd 0x2C, Wr.dataColor [7, 7] 1] ∧
    callWrites d240 (DrawCall.vl 0 0 300) (300, 0) = true ∧
    ¬ (300 : Int) < d240.width := by
  refine ⟨rfl, by decide, by decide⟩

/-- Claim C8: for an in-range point, the zero-length line takes the
horizontal fast path and delegates to `hline x x y`, which sets the
1x1 window `(x, y, x, y)` and writes exactly one color value; the set
of pixels that call writes is exactly the singleton (x, y). -/
theorem line_zero_length (d : ST7789) (x y : Int) (c : List Nat)
    (hx0 : 0 ≤ x) (hx1 : x < d.width) (hy0 : 0 ≤ y) (hy1 : y < d.height) :
    line x y x y = some [DrawCall.hl x x y] ∧
    hline d x x y c = set_window d x y x y ++ [Wr.dataColor c 1] ∧
    (∀ p : Int × Int, callWrites d (DrawCall.hl x x y) p = true ↔ p = (x, y)) := by
  refine ⟨by simp [line], ?_, ?_⟩
  · have hcond : ¬(y < 0 ∨ y ≥ d.height) := by omega
    simp only [hline]
    rw [if_neg hcond]
    have h1 : max (min x x) 0 = x := by omega
    have h2 : min (max x x) (d.width - 1) = x := by omega
    rw [h1, h2]
    have h3 : (x - x + 1 : Int).toNat = 1 := by omega
    rw [h3]
  · intro p
    obtain ⟨a, b⟩ := p
    simp only [callWrites, Bool.and_eq_true, decide_eq_true_eq, Prod.mk.injEq]
    omega

/-- Claim C8 witness at (5, 6) on the 240x240 panel. -/
theorem line_zero_length_witness :
    line 5 6 5 6 = some [DrawCall.hl 5 5 6] ∧
    callWrites d240 (DrawCall.hl 5 5 6) (5, 6) = true :=
  ⟨(line_zero_length d240 5 6 [0, 31] (by decide) (by decide) (by decide) (by decide)).1,
   ((line_zero_length d240 5 6 [0, 31] (by decide) (by decide) (by decide)
      (by decide)).2.2 (5, 6)).mpr rfl⟩

/-- A cons keeps the last element of a nonempty list. -/
theorem getLast?_cons_of_some {α : Type} (a : α) (l : List α) (b : α)
    (h : l.getLast? = some b) : (a :: l).getLast? = some b := by
  cases l with
  | nil => simp at h
  | cons c t => rw [List.getLast?_cons_cons]; exact h

/-- The Bresenham loop reaches the break within the fuel bound.  The
state is tracked through the signed remaining distances `u`, `v`
(`x1 - x0 = sx*u`, `y1 - y0 = sy*v`, both nonnegative) and the error
invariant `err = dx + dy - u*dy - v*dx`; each iteration keeps the
invariant, never overshoots (a step in a direction already exhausted
is impossible under the invariant), and strictly decreases `u + v`. -/
theorem bres_reaches_break (x1 y1 dx dy sx sy : Int)
    (hdx : 1 ≤ dx) (hdy : dy ≤ -1)
    (hsx : sx = 1 ∨ sx = -1) (hsy : sy = 1 ∨ sy = -1) :
    ∀ (n : Nat) (x0 y0 err u v : Int),
      x1 - x0 = sx * u → y1 - y0 = sy * v →
      0 ≤ u → 0 ≤ v →
      err = dx + dy - u * dy - v * dx →
      (u + v).toNat < n →
      ∃ calls, bres x1 y1 dx dy sx sy n x0 y0 err = some calls ∧
        calls.getLast? = some (DrawCall.px x1 y1) := by
  intro n
  induction n with
  | zero => intro x0 y0 err u v _ _ _ _ _ hfuel; omega
  | succ n ih =>
    intro x0 y0 err u v hxu hyv hu hv herr hfuel
    by_cases hbreak : x0 = x1 ∧ y0 = y1
    · refine ⟨[DrawCall.px x0 y0], by simp [bres, hbreak], ?_⟩
      rw [hbreak.1, hbreak.2]
      rfl
    · have hsx2 : sx * sx = 1 := by rcases hsx with rfl | rfl <;> ring
      have hsy2 : sy * sy = 1 := by rcases hsy with rfl | rfl <;> ring
      have huv : 1 ≤ u ∨ 1 ≤ v := by
        by_contra hcon
        push_neg at hcon
        have hu0 : u = 0 := by omega
        have hv0 : v = 0 := by omega
        exact hbreak ⟨by rw [hu0, mul_zero] at hxu; omega,
                      by rw [hv0, mul_zero] at hyv; omega⟩
      by_cases hcx : 2 * err ≥ dy
      · -- the x-step fires, so u must still be positive
        have hu1 : 1 ≤ u := by
          by_contra hle
          have hu0 : u = 0 := by omega
          have hv1 : 1 ≤ v := by rcases huv with h | h <;> omega
          have hvdx : dx ≤ v * dx := le_mul_of_one_le_left (by omega) hv1
          rw [hu0] at herr
          have : err = dx + dy - v * dx := by rw [herr]; ring
          omega
        have hxu' : x1 - (x0 + sx) = sx * (u - 1) := by
          have : x1 - (x0 + sx) = (x1 - x0) - sx := by ring
          rw [this, hxu]; ring
        by_cases hcy : 2 * err ≤ dx
        · -- both steps fire
          have hv1 : 1 ≤ v := by
            by_contra hle
            have hv0 : v = 0 := by omega
            have hu1' : 1 ≤ u := hu1
            have hudy : u * dy ≤ 1 * dy :=
              mul_le_mul_of_nonpos_right hu1' (by omega)
            rw [hv0] at herr
            have : err = dx + dy - u * dy := by rw [herr]; ring
            omega
          have hyv' : y1 - (y0 + sy) = sy * (v - 1) := by
            have : y1 - (y0 + sy) = (y1 - y0) - sy := by ring
            rw [this, hyv]; ring
          have herr' : (err + dy) + dx = dx + dy - (u - 1) * dy - (v - 1) * dx := by
            rw [herr]; ring
          obtain ⟨rest, hrest, hlast⟩ := ih (x0 + sx) (y0 + sy) ((err + dy) + dx)
            (u - 1) (v - 1) hxu' hyv' (by omega) (by omega) herr' (by omega)
          refine ⟨DrawCall.px x0 y0 :: rest, ?_, getLast?_cons_of_some _ _ _ hlast⟩
          simp only [bres, hbreak, if_false, if_pos hcx, if_pos hcy, hrest]
          rfl
        · -- only the x-step fires
          have herr' : err + dy = dx + dy - (u - 1) * dy - v * dx := by
            rw [herr]; ring
          obtain ⟨rest, hrest, hlast⟩ := ih (x0 + sx) y0 (err + dy)
            (u - 1) v hxu' hyv (by omega) hv herr' (by omega)
          refine ⟨DrawCall.px x0 y0 :: rest, ?_, getLast?_cons_of_some _ _ _ hlast⟩
          simp only [bres, hbreak, if_false, if_pos hcx, if_neg hcy, hrest]
          rfl
      · -- the x-step does not fire, so the y-step necessarily fires
        have hcy : 2 * err ≤ dx := by omega
        have hv1 : 1 ≤ v := by
          by_contra hle
          have hv0 : v = 0 := by omega
          have hu1 : 1 ≤ u := by rcases huv with h | h <;> omega
          have hudy : u * dy ≤ 1 * dy :=
            mul_le_mul_of_nonpos_right hu1 (by omega)
          rw [hv0] at herr
          have : err = dx + dy - u * dy := by rw [herr]; ring
          omega
        have hyv' : y1 - (y0 + sy) = sy * (v - 1) := by
          have : y1 - (y0 + sy) = (y1 - y0) - sy := by ring
          rw [this, hyv]; ring
        have herr' : err + dx = dx + dy - u * dy - (v - 1) * dx := by
          rw [herr]; ring
        obtain ⟨rest, hrest, hlast⟩ := ih x0 (y0 + sy) (err + dx)
          u (v - 1) hxu hyv' hu (by omega) herr' (by omega)
        refine ⟨DrawCall.px x0 y0 :: rest, ?_, getLast?_cons_of_some _ _ _ hlast⟩
        simp only [bres, hbreak, if_false, if_neg hcx, if_pos hcy, hrest]
        rfl

/-- Claim C10: for x0 ≠ x1 and y0 ≠ y1, the Bresenham loop of `line`
terminates within |x1-x0| + |y1-y0| + 1 iterations (each iteration
strictly decreases the remaining distance |x1-x0| + |y1-y0| without
overshooting), and the final plotted point is (x1, y1), where the
loop breaks. -/
theorem line_bresenham_terminates (x0 y0 x1 y1 : Int)
    (hx : x0 ≠ x1) (hy : y0 ≠ y1) :
    (line x0 y0 x1 y1).map (fun calls => calls.getLast?) =
      some (some (DrawCall.px x1 y1)) := by
  have hyy : ¬ y0 = y1 := hy
  have hxx : ¬ x0 = x1 := hx
  rw [line, if_neg hyy, if_neg hxx]
  have hdx : 1 ≤ |x1 - x0| := by
    rcases abs_cases (x1 - x0) with ⟨hA, _⟩ | ⟨hA, _⟩ <;> omega
  have hdy : -|y1 - y0| ≤ -1 := by
    rcases abs_cases (y1 - y0) with ⟨hA, _⟩ | ⟨hA, _⟩ <;> omega
  have hsx : (if x0 < x1 then (1 : Int) else -1) = 1 ∨
      (if x0 < x1 then (1 : Int) else -1) = -1 := by
    split <;> simp
  have hsy : (if y0 < y1 then (1 : Int) else -1) = 1 ∨
      (if y0 < y1 then (1 : Int) else -1) = -1 := by
    split <;> simp
  have hxu : x1 - x0 = (if x0 < x1 then (1 : Int) else -1) * |x1 - x0| := by
    rcases lt_trichotomy x0 x1 with h | h | h
    · rw [if_pos h, one_mul, abs_of_pos (by omega)]
    · exact absurd h hx
    · rw [if_neg (by omega), abs_of_neg (by omega)]; ring
  have hyv : y1 - y0 = (if y0 < y1 then (1 : Int) else -1) * |y1 - y0| := by
    rcases lt_trichotomy y0 y1 with h | h | h
    · rw [if_pos h, one_mul, abs_of_pos (by omega)]
    · exact absurd h hy
    · rw [if_neg (by omega), abs_of_neg (by omega)]; ring
  have herr : |x1 - x0| + -|y1 - y0| =
      |x1 - x0| + -|y1 - y0| - |x1 - x0| * -|y1 - y0| - |y1 - y0| * |x1 - x0| := by
    ring
  have hfuel : (|x1 - x0| + |y1 - y0|).toNat <
      (x1 - x0).natAbs + (y1 - y0).natAbs + 1 := by
    rw [Int.abs_eq_natAbs, Int.abs_eq_natAbs]
    omega
  obtain ⟨calls, hcalls, hlast⟩ :=
    bres_reaches_break x1 y1 |x1 - x0| (-|y1 - y0|)
      (if x0 < x1 then 1 else -1) (if y0 < y1 then 1 else -1)
      hdx hdy hsx hsy
      ((x1 - x0).natAbs + (y1 - y0).natAbs + 1) x0 y0
      (|x1 - x0| + -|y1 - y0|) |x1 - x0| |y1 - y0|
      hxu hyv (abs_nonneg _) (abs_nonneg _) herr hfuel
  rw [hcalls]
  simp [hlast]

/-- The guarded slope expression always produces a value: the
division is only reached when the divisor is nonzero. -/
theorem slope_term_eq (a b : ℚ) :
    slope_term a b = some (if b = 0 then 0 else a / b) := by
  by_cases hb : b = 0
  · simp [slope_term, hb]
  · simp [slope_term, pydiv, hb]

/-- Python `int()` of an integer-valued rational is that integer. -/
theorem pyInt_intCast (n : Int) : pyInt (n : ℚ) = n := by
  unfold pyInt
  split <;> simp

/-- Claim C6: `fill_triangle` never divides by zero: every inverse
slope whose `y`-difference is zero is replaced by 0, so the call
completes on every input, including collinear triples and zero-height
edges; on the fully degenerate triangle (all vertices equal) it
produces a single-pixel fill. -/
theorem fill_triangle_no_div_fault :
    (∀ x0 y0 x1 y1 x2 y2 : Int, (fill_triangle x0 y0 x1 y1 x2 y2).isSome = true) ∧
    (∀ dx : ℚ, slope_term dx 0 = some 0) ∧
    (∀ x y : Int, fill_triangle x y x y x y = some [DrawCall.hl x x y]) := by
  refine ⟨?_, ?_, ?_⟩
  · intro x0 y0 x1 y1 x2 y2
    unfold fill_triangle
    repeat' split
    all_goals simp [slope_term_eq]
  · intro dx
    simp [slope_term]
  · intro x y
    have hy : ¬ y > y := lt_irrefl y
    have h1 : (y + 1 - y : Int).toNat = 1 := by omega
    have h2 : (y - y : Int).toNat = 0 := by omega
    have h3 : List.range 1 = [0] := rfl
    simp [fill_triangle, hy, slope_term_eq, h1, h2, h3, pyInt_intCast,
      List.flatMap_cons, List.flatMap_nil]

/-- Length of the first `k` glyph rows laid out contiguously. -/
theorem flatMap_row_length (row : Nat → List Nat) (w2 : Nat)
    (hrow : ∀ dy, dy < 8 → (row dy).length = w2) :
    ∀ k, k ≤ 8 → ((List.range k).flatMap row).length = k * w2 := by
  intro k
  induction k with
  | zero => intro _; simp
  | succ k ih =>
    intro hk
    rw [List.range_succ, List.flatMap_append, List.length_append, ih (by omega)]
    have hone : ([k].flatMap row).length = w2 := by simp [hrow k (by omega)]
    rw [hone]
    ring

/-- The copy loop of `char` writes the 8 rows back to back: after the
loop, the buffer is exactly the concatenation of the rows.  Stated for
the remaining iterations `range' k n` with the first `k` rows already
in place. -/
theorem foldl_setSlice_rows (row : Nat → List Nat) (w2 : Nat)
    (hrow : ∀ dy, dy < 8 → (row dy).length = w2) :
    ∀ (n k : Nat), k + n = 8 →
      (List.range' k n).foldl (fun copy dy => setSlice copy (dy * w2) (row dy))
        (((List.range k).flatMap row) ++ List.replicate (n * w2) 0)
      = (List.range 8).flatMap row := by
  intro n
  induction n with
  | zero =>
    intro k hk
    have hk8 : k = 8 := by omega
    subst hk8
    simp
  | succ n ih =>
    intro k hk
    rw [List.range'_succ, List.foldl_cons]
    have hbuilt : ((List.range k).flatMap row).length = k * w2 :=
      flatMap_row_length row w2 hrow k (by omega)
    have hrowk : (row k).length = w2 := hrow k (by omega)
    have hsub : (n + 1) * w2 - w2 = n * w2 := by
      have : (n + 1) * w2 = n * w2 + w2 := by ring
      omega
    have hstep :
        setSlice (((List.range k).flatMap row) ++ List.replicate ((n + 1) * w2) 0)
          (k * w2) (row k)
        = ((List.range (k + 1)).flatMap row) ++ List.replicate (n * w2) 0 := by
      unfold setSlice
      rw [hrowk, ← hbuilt, List.take_left, List.drop_append, List.drop_replicate,
        hsub, List.range_succ, List.flatMap_append]
      simp
    rw [hstep]
    exact ih (k + 1) (by omega)

/-- `charCopy` extracts, row by row, the first `w*2` bytes of each of
the 8 rows of the 16-byte-wide scratch buffer. -/
theorem charCopy_rows (w : Nat) (src : List Nat)
    (hw1 : 1 ≤ w) (hw7 : w ≤ 7) (hsrc : src.length = 128) :
    charCopy w src =
      (List.range 8).flatMap (fun dy => (src.drop (dy * 8 * 2)).take (w * 2)) := by
  have hrow : ∀ dy, dy < 8 →
      ((src.drop (dy * 8 * 2)).take (w * 2)).length = w * 2 := by
    intro dy hdy
    rw [List.length_take, List.length_drop, hsrc]
    omega
  unfold charCopy
  have hfun : (fun (copy : List Nat) (dy : Nat) =>
      setSlice copy (dy * w * 2) ((src.drop (dy * 8 * 2)).take (w * 2)))
      = (fun copy dy => setSlice copy (dy * (w * 2)) ((src.drop (dy * 8 * 2)).take (w * 2))) := by
    funext copy dy
    rw [Nat.mul_assoc]
  rw [hfun]
  have hinit : List.replicate (w * 8 * 2) (0:Nat) =
      ((List.range 0).flatMap (fun dy => (src.drop (dy * 8 * 2)).take (w * 2))) ++
      List.replicate (8 * (w * 2)) 0 := by
    have h8 : w * 8 * 2 = 8 * (w * 2) := by ring
    simp [h8]
  rw [hinit]
  have hmain := foldl_setSlice_rows
    (fun dy => (src.drop (dy * 8 * 2)).take (w * 2)) (w * 2) hrow 8 0 rfl
  rw [← List.range_eq_range'] at hmain
  exact hmain

/-- Claim C7: a character blit whose right edge sticks out
(`0 ≤ x < width ≤ x+7`) sets a window of `width - x` columns ending at
column `width - 1` (no emitted column reaches `width`), and sends the
8 glyph rows each cut down to the visible `width - x` columns of the
scratch buffer. -/
theorem char_partial_blit (d : ST7789) (x y : Int) (src : List Nat)
    (hx0 : 0 ≤ x) (hx1 : x < d.width) (hx7 : d.width ≤ x + 7)
    (hy : y < d.height) (hsrc : src.length = 128) :
    char d x y src =
      set_columns d x (d.width - 1) ++ set_rows d y (y + 7) ++ [Wr.cmd 0x2C] ++
        [Wr.dataBytes ((List.range 8).flatMap
          (fun dy => (src.drop (dy * 8 * 2)).take ((d.width - x).toNat * 2)))] ∧
    x ≤ d.width - 1 := by
  constructor
  · have hc1 : ¬(x ≥ d.width ∨ y ≥ d.height) := by omega
    have hc2 : x + 7 ≥ d.width := hx7
    simp only [char]
    rw [if_neg hc1, if_pos hc2]
    have hxw : x + (d.width - x) - 1 = d.width - 1 := by ring
    rw [hxw]
    rw [charCopy_rows (d.width - x).toNat src (by omega) (by omega) hsrc]
    simp [set_window, List.append_assoc]
  · omega

/-- Claim C7 witness: x = 235 on the 240-wide panel (5 visible
columns). -/
theorem char_partial_blit_witness :
    char d240 235 0 (List.replicate 128 0) =
      set_columns d240 235 (d240.width - 1) ++ set_rows d240 0 (0 + 7) ++
        [Wr.cmd 0x2C] ++
        [Wr.dataBytes ((List.range 8).flatMap
          (fun dy => ((List.replicate 128 0).drop (dy * 8 * 2)).take
            ((d240.width - 235).toNat * 2)))] ∧
    (235 : Int) ≤ d240.width - 1 :=
  char_partial_blit d240 235 0 (List.replicate 128 0)
    (by decide) (by decide) (by decide) (by decide) (by simp)

/-- Claim C10 witness: the line from (0,0) to (3,5) terminates and
ends at (3,5). -/
theorem line_bresenham_terminates_witness :
    (line 0 0 3 5).map (fun calls => calls.getLast?) =
      some (some (DrawCall.px 3 5)) :=
  line_bresenham_terminates 0 0 3 5 (by decide) (by decide)

end ST77xx
